import Mathlib

set_option maxHeartbeats 1000000

set_option maxRecDepth 10000

/-- Number of transactions (rows of the presence matrix) containing every
item of `S`.  This is the support counter both miners are specified
against: support(S) = supportCount txs S / txs.length. -/

def supportCount {ι : Type} [DecidableEq ι] (txs : List (Finset ι)) (S : Finset ι) : Nat :=
  txs.countP (fun t => decide (S ⊆ t))

/-- The item universe: union of all transactions (the distinct items, i.e.
the columns of the encoded matrix). -/

def universeItems {ι : Type} [DecidableEq ι] (txs : List (Finset ι)) : Finset ι :=
  txs.foldr (· ∪ ·) ∅

/-- Fractional support, as reported by the miners (count / row count). -/

def supQ {ι : Type} [DecidableEq ι] (txs : List (Finset ι)) (S : Finset ι) : ℚ :=
  (supportCount txs S : ℚ) / (txs.length : ℚ)

/-- Translation of a fractional minimum-support threshold `s` over `n`
transactions into a count threshold: a count `c` satisfies
`(c : ℚ) / n ≥ s` iff `c ≥ countThreshold s n` (for `n > 0`). -/

def countThreshold (s : ℚ) (n : Nat) : Nat :=
  (Int.ceil (s * (n : ℚ))).toNat

/-- The declarative mining contract from the spec: all non-empty itemsets
over the matrix columns whose support count meets the threshold. -/

def frequentSets {ι : Type} [DecidableEq ι] (txs : List (Finset ι)) (θ : Nat) :
    Finset (Finset ι) :=
  (universeItems txs).powerset.filter (fun S => S ≠ ∅ ∧ θ ≤ supportCount txs S)

/-- Frequent singletons: level 1 of the breadth-first search. -/

def level1 {ι : Type} [DecidableEq ι] (txs : List (Finset ι)) (θ : Nat) :
    Finset (Finset ι) :=
  ((universeItems txs).image (fun i => ({i} : Finset ι))).filter
    (fun S => θ ≤ supportCount txs S)

/-- Candidate generation with the all-subsets pruning rule. -/

def candidates {ι : Type} [DecidableEq ι] (univ : Finset ι)
    (prev : Finset (Finset ι)) : Finset (Finset ι) :=
  (prev.biUnion (fun S => (univ \ S).image (fun i => insert i S))).filter
    (fun C => ∀ j ∈ C, C.erase j ∈ prev)

/-- One level step: generate candidates, keep those meeting the support
threshold (support computed by a fresh scan of the matrix). -/

def nextLevel {ι : Type} [DecidableEq ι] (txs : List (Finset ι)) (θ : Nat)
    (prev : Finset (Finset ι)) : Finset (Finset ι) :=
  (candidates (universeItems txs) prev).filter (fun S => θ ≤ supportCount txs S)

/-- The level-wise loop; stops early when a level is empty. -/

def aprioriLoop {ι : Type} [DecidableEq ι] (txs : List (Finset ι)) (θ : Nat) :
    Nat → Finset (Finset ι) → Finset (Finset ι)
  | 0, _ => ∅
  | f + 1, prev =>
    if prev = ∅ then ∅ else prev ∪ aprioriLoop txs θ f (nextLevel txs θ prev)

/-- Breadth-first (Apriori) miner: union of all levels. -/

def apriori {ι : Type} [DecidableEq ι] (txs : List (Finset ι)) (θ : Nat) :
    Finset (Finset ι) :=
  aprioriLoop txs θ (universeItems txs).card (level1 txs θ)

/-- Apriori output rows: each frequent itemset annotated with the support
count obtained from the matrix scan. -/

def aprioriAnn {ι : Type} [DecidableEq ι] (txs : List (Finset ι)) (θ : Nat) :
    Finset (Finset ι × Nat) :=
  (apriori txs θ).image (fun S => (S, supportCount txs S))

/-- The level-k slice of the declarative frequent-itemset set. -/

def levelSet {ι : Type} [DecidableEq ι] (txs : List (Finset ι)) (θ : Nat)
    (k : Nat) : Finset (Finset ι) :=
  (universeItems txs).powerset.filter
    (fun S => S.card = k ∧ θ ≤ supportCount txs S)

/-! ### A stable insertion sort

Used (a) to model the frequency ordering of FP-Growth's header table and
(b) to model the descending sorts of the query layer (pandas sort_values),
whose tie-break the spec fixes to insertion order, i.e. a stable sort.
`pref x y = true` means x may be placed before y. -/

def insBy {α : Type} (pref : α → α → Bool) (x : α) : List α → List α
  | [] => [x]
  | y :: ys => if pref x y then x :: y :: ys else y :: insBy pref x ys

def insSortBy {α : Type} (pref : α → α → Bool) : List α → List α
  | [] => []
  | x :: xs => insBy pref x (insSortBy pref xs)

/-- Weighted support: total count of the weighted transactions containing
every item of `S`. -/

def wsupport {ι : Type} [DecidableEq ι] (db : List (Finset ι × Nat))
    (S : Finset ι) : Nat :=
  (db.map (fun p => if S ⊆ p.1 then p.2 else 0)).sum

/-- Conditional pattern base for item `i`: the weighted prefix paths of the
transactions containing `i`, restricted to the not-yet-processed items. -/

def condDB {ι : Type} [DecidableEq ι] (db : List (Finset ι × Nat)) (i : ι)
    (keep : Finset ι) : List (Finset ι × Nat) :=
  (db.filter (fun p => decide (i ∈ p.1))).map (fun p => (p.1 ∩ keep, p.2))

/-- Recursive FP-Growth mining over a weighted pattern base.  For each
header item (in list order): if its accumulated count meets the threshold,
emit the item joined with the current suffix, then recurse into its
freshly built conditional pattern base; in both cases continue with the
remaining items over the current base. -/

def fpAux {ι : Type} [DecidableEq ι] (θ : Nat) :
    List ι → List (Finset ι × Nat) → Finset ι → Finset (Finset ι × Nat)
  | [], _, _ => ∅
  | i :: rest, db, suffix =>
    (if θ ≤ wsupport db ({i} : Finset ι) then
      insert (insert i suffix, wsupport db ({i} : Finset ι))
        (fpAux θ rest (condDB db i rest.toFinset) (insert i suffix))
    else ∅) ∪ fpAux θ rest db suffix

/-- Header order: items that survive the singleton-support filter, sorted
by ascending global support; the underlying canonical (sorted) column list
makes the stable sort break ties by canonical item order. -/

def fpOrder {ι : Type} [DecidableEq ι] [LinearOrder ι] (txs : List (Finset ι))
    (θ : Nat) : List ι :=
  insSortBy
    (fun a b =>
      decide (supportCount txs ({a} : Finset ι) ≤ supportCount txs ({b} : Finset ι)))
    ((Finset.sort (· ≤ ·) (universeItems txs)).filter
      (fun i => decide (θ ≤ supportCount txs ({i} : Finset ι))))

/-- The weighted transaction list of the initial tree: one path per matrix
row, each with count one. -/

def toWeighted {ι : Type} (txs : List (Finset ι)) : List (Finset ι × Nat) :=
  txs.map (fun t => (t, 1))

/-- Tree-based (FP-Growth) miner: mine the weighted transactions along the
header order, starting from the empty suffix.  Output rows carry the
support counts accumulated during mining. -/

def fpgrowth {ι : Type} [DecidableEq ι] [LinearOrder ι] (txs : List (Finset ι))
    (θ : Nat) : Finset (Finset ι × Nat) :=
  fpAux θ (fpOrder txs θ) (toWeighted txs) ∅

/-- What a recursive FP-Growth call over a pattern base computes: every
non-empty combination of header items meeting the threshold, joined with
the accumulated suffix and annotated with its weighted support. -/

def freqOver {ι : Type} [DecidableEq ι] (items : Finset ι)
    (db : List (Finset ι × Nat)) (θ : Nat) (suffix : Finset ι) :
    Finset (Finset ι × Nat) :=
  (items.powerset.filter (fun S => S ≠ ∅ ∧ θ ≤ wsupport db S)).image
    (fun S => (S ∪ suffix, wsupport db S))

/-! ### Rule generator

Modelled from the spec (section 4.4) and the two call sites in src/app.py:
for every frequent itemset of size at least 2, every non-empty proper
subset becomes an antecedent, the complement the consequent; metrics are
computed from the precomputed support lookup (no matrix re-scan); a rule is
kept iff the selected evaluation metric meets the minimum threshold
(app.py line 83 selects the confidence metric with threshold 0.3,
line 241 selects the lift metric with threshold 1.0).
The body of mlxtend's association_rules is not part of src/. -/

structure Rule (ι : Type) where
  antecedent : Finset ι
  consequent : Finset ι
  support : ℚ
  confidence : ℚ
  lift : ℚ
deriving DecidableEq

inductive Metric : Type
  | confidence : Metric
  | lift : Metric
deriving DecidableEq

def metricValue {ι : Type} : Metric → Rule ι → ℚ
  | Metric.confidence, r => r.confidence
  | Metric.lift, r => r.lift

/-- Build the rule antecedent → (parent minus antecedent) with its derived
metrics, all looked up from the support table `sup`. -/

def mkRule {ι : Type} [DecidableEq ι] (sup : Finset ι → ℚ)
    (parent A : Finset ι) : Rule ι :=
  { antecedent := A
    consequent := parent \ A
    support := sup parent
    confidence := sup parent / sup A
    lift := sup parent / sup A / sup (parent \ A) }

/-- The rule-generation stage: enumerate all antecedent splits of every
itemset of size at least 2 and keep the rules whose selected metric meets
the threshold. -/

def association_rules {ι : Type} [DecidableEq ι] (itemsets : Finset (Finset ι))
    (sup : Finset ι → ℚ) (m : Metric) (minThreshold : ℚ) : Finset (Rule ι) :=
  ((itemsets.filter (fun S => 2 ≤ S.card)).biUnion
    (fun S => ((S.powerset.erase ∅).erase S).image (mkRule sup S))).filter
      (fun r => minThreshold ≤ metricValue m r)

/-! ### The pipeline of src/app.py

`frequent_itemsets` / `rules` model lines 82-84 (Apriori at min_support
0.01, rules at confidence >= 0.3, then the caller-side lift > 1 filter);
`frequent_itemsets_fp` / `rules_fp` model lines 238-241 (FP-Growth at
min_support 0.05, rules at lift >= 1.0). -/

def frequent_itemsets {ι : Type} [DecidableEq ι] (txs : List (Finset ι)) :
    Finset (Finset ι) :=
  apriori txs (countThreshold (1 / 100) txs.length)

def rules {ι : Type} [DecidableEq ι] (txs : List (Finset ι)) :
    Finset (Rule ι) :=
  (association_rules (frequent_itemsets txs) (supQ txs)
      Metric.confidence (3 / 10)).filter (fun r => 1 < r.lift)

def frequent_itemsets_fp {ι : Type} [DecidableEq ι] [LinearOrder ι]
    (txs : List (Finset ι)) : Finset (Finset ι) :=
  (fpgrowth txs (countThreshold (1 / 20) txs.length)).image Prod.fst

def rules_fp {ι : Type} [DecidableEq ι] [LinearOrder ι]
    (txs : List (Finset ι)) : Finset (Rule ι) :=
  association_rules (frequent_itemsets_fp txs) (supQ txs) Metric.lift 1

/-- Line 194: rules whose antecedent contains the selected product. -/

def filtered_rules {ι : Type} [DecidableEq ι] (rs : List (Rule ι)) (product : ι) :
    List (Rule ι) :=
  rs.filter (fun r => decide (product ∈ r.antecedent))

/-- pandas sort_values(by=key, ascending=False) with stable ties
(spec: ties broken by rule insertion/discovery order). -/

def sortDescBy {ι : Type} (key : Rule ι → ℚ) (rs : List (Rule ι)) :
    List (Rule ι) :=
  insSortBy (fun a b => decide (key b ≤ key a)) rs

/-- head(k) of the descending sort: top-K selection. -/

def topK {ι : Type} (key : Rule ι → ℚ) (k : Nat) (rs : List (Rule ι)) :
    List (Rule ι) :=
  (sortDescBy key rs).take k

/-- Line 197: top three recommendations by lift. -/

def top3 {ι : Type} (rs : List (Rule ι)) : List (Rule ι) :=
  topK Rule.lift 3 rs

/-- Line 219: the "golden rules" list (sorted by lift, head(10)). -/

def top5 {ι : Type} (rs : List (Rule ι)) : List (Rule ι) :=
  topK Rule.lift 10 rs

/-- Line 189: the selectable products, sorted(basket.columns). -/

def productChoices {ι : Type} [DecidableEq ι] [LinearOrder ι]
    (txs : List (Finset ι)) : List ι :=
  insSortBy (fun a b => decide (a ≤ b)) (Finset.sort (· ≤ ·) (universeItems txs))

inductive QueryError : Type
  | unknownItem : QueryError
deriving DecidableEq

/-- Modelled from the spec: a query that references an item absent from the
universe fails with UnknownItemError (section 7); app.py line 194 applies
the antecedent filter directly, which is total because the selected product
always comes from the matrix columns. -/

def queryRules {ι : Type} [DecidableEq ι] (univSet : Finset ι)
    (rs : List (Rule ι)) (p : ι) : Except QueryError (List (Rule ι)) :=
  if p ∈ univSet then Except.ok (filtered_rules rs p)
  else Except.error QueryError.unknownItem

/-! ### Loading, grouping, rendering and the top-level guard

load_data (line 66) normalizes each Product_Name by strip() then title();
line 76 groups records by Transaction_ID (pandas groupby sorts the keys);
lines 87-88 render a frozenset by joining its items in iteration order;
lines 74/402 run the pipeline only when the loaded frame is non-empty and
otherwise show a warning.  Names are modelled as lists of character codes
and the string operations are modelled for the ASCII range. -/

def isSpaceN (c : Nat) : Bool :=
  c == 32 || c == 9 || c == 10 || c == 13 || c == 11 || c == 12

def isAlphaN (c : Nat) : Bool :=
  (decide (65 ≤ c) && decide (c ≤ 90)) || (decide (97 ≤ c) && decide (c ≤ 122))

def toLowerN (c : Nat) : Nat := if 65 ≤ c ∧ c ≤ 90 then c + 32 else c

def toUpperN (c : Nat) : Nat := if 97 ≤ c ∧ c ≤ 122 then c - 32 else c

/-- Python str.strip(): drop leading and trailing whitespace. -/

def pyStrip (l : List Nat) : List Nat :=
  ((l.dropWhile isSpaceN).reverse.dropWhile isSpaceN).reverse

/-- Python str.title() on ASCII: a cased character is uppercased when the
previous character is not cased, lowercased otherwise. -/

def titleMap : Bool → List Nat → List Nat
  | _, [] => []
  | prevAlpha, c :: cs =>
    (if prevAlpha then toLowerN c else toUpperN c) :: titleMap (isAlphaN c) cs

def pyTitle (l : List Nat) : List Nat := titleMap false l

/-- Line 66: Product_Name.str.strip().str.title(). -/

def normalizeName (l : List Nat) : List Nat := pyTitle (pyStrip l)

/-- Line 66 applied to a raw record table: normalize every product name. -/

def load_data (records : List (Nat × List Nat)) : List (Nat × List Nat) :=
  records.map (fun p => (p.1, normalizeName p.2))

/-- Line 76: group the records of one table into per-transaction item sets,
one row per distinct Transaction_ID in ascending ID order (pandas groupby
sorts its keys); duplicate items inside one transaction collapse. -/

def transactionsOf {ι : Type} [DecidableEq ι] (records : List (Nat × ι)) :
    List (Finset ι) :=
  (insSortBy (fun a b => decide (a ≤ b)) (records.map Prod.fst).dedup).map
    (fun t => ((records.filter (fun p => p.1 == t)).map Prod.snd).toFinset)

/-- Lines 87-88: join the members of a frozenset in its iteration order.
CPython iterates a frozenset of strings in hash order, so the iteration
order is an arbitrary permutation of the itemset, not necessarily the
encoder's canonical order; the function is therefore modelled on the
iteration order actually presented to it. -/

def frozen_to_str (iterationOrder : List String) : String :=
  String.intercalate ", " iterationOrder

inductive AppOutcome (ι : Type) : Type
  | results : Finset (Finset ι × Nat) → Finset (Rule ι) → AppOutcome ι
  | dataWarning : AppOutcome ι
  /-- Modelled from the spec (sections 7, 8): the typed failure the spec
  prescribes for mining over zero transactions.  No such error exists in
  src/app.py; the constructor exists so the spec's claim can be stated. -/
  | emptyInputError : AppOutcome ι

/-- The top-level behaviour of src/app.py: when the loaded table is empty
(line 74) only a warning is shown (line 403); otherwise the matrix is
encoded and the Apriori pipeline of lines 82-84 runs. -/

def runApp {ι : Type} [DecidableEq ι] (records : List (Nat × ι)) :
    AppOutcome ι :=
  match records with
  | [] => AppOutcome.dataWarning
  | _ :: _ =>
    AppOutcome.results
      (aprioriAnn (transactionsOf records)
        (countThreshold (1 / 100) (transactionsOf records).length))
      (rules (transactionsOf records))

def db4 : List (Finset ℕ) := [{0, 1}, {0, 1, 2}, {0}, {1, 2}]

def dbC2 : List (Finset ℕ) := [{0, 1}, {1}, {1}, {1}]

def dbW6 : List (Finset ℕ) := [{0}, {0}, {1}]

/-! ### Theorems -/

/-!
Verification of the frequent-itemset / association-rule engine behind the
Swift-Cart market basket analysis dashboard (src/app.py).

The dashboard delegates the actual mining to library calls
(TransactionEncoder, apriori, fpgrowth, association_rules); the bodies of
those functions are not part of src/, only their call sites are.  Following
the specification, the engine itself is therefore modelled here from the
spec's algorithm descriptions (sections 4.1-4.5), while every parameter,
filter and query that does appear in src/app.py (thresholds, the lift
post-filter, frozen_to_str, filtered_rules, the top-K sorts, the empty-data
guard, name normalization in load_data) is translated from the source.

Conventions:
* items are an abstract type with decidable equality (and a linear order
  where the encoder's canonical column order matters);
* a transaction is a Finset of items, the boolean presence matrix is the
  list of its transaction rows (row t has a True cell in column i iff
  i is a member of row t);
* supports are counted as natural numbers (number of matching rows);
  the fractional support of the source is the count divided by the number
  of rows, and fractional thresholds are translated by countThreshold.
-/

theorem supportCount_anti {ι : Type} [DecidableEq ι] (txs : List (Finset ι))
    {A B : Finset ι} (h : A ⊆ B) : supportCount txs B ≤ supportCount txs A := by
  induction txs with
  | nil => simp [supportCount]
  | cons t ts ih =>
    simp only [supportCount, List.countP_cons] at *
    have hab : decide (B ⊆ t) = true → decide (A ⊆ t) = true := by
      simp only [decide_eq_true_eq]
      exact fun hb => h.trans hb
    by_cases hb : decide (B ⊆ t) = true
    · simp [hb, hab hb]; omega
    · simp only [Bool.not_eq_true] at hb
      simp [hb]
      split <;> omega

theorem mem_universeItems {ι : Type} [DecidableEq ι] {txs : List (Finset ι)}
    {t : Finset ι} (ht : t ∈ txs) : t ⊆ universeItems txs := by
  induction txs with
  | nil => simp at ht
  | cons s ts ih =>
    have hu : universeItems (s :: ts) = s ∪ universeItems ts := rfl
    rcases List.mem_cons.mp ht with h | h
    · subst h; rw [hu]; exact Finset.subset_union_left
    · rw [hu]; exact (ih h).trans Finset.subset_union_right

/-- A set with a positive support count is contained in some transaction,
hence in the universe. -/

theorem subset_universe_of_support_pos {ι : Type} [DecidableEq ι]
    {txs : List (Finset ι)} {S : Finset ι} (h : 1 ≤ supportCount txs S) :
    S ⊆ universeItems txs := by
  have : ∃ t ∈ txs, decide (S ⊆ t) = true := by
    by_contra hc
    push_neg at hc
    have : supportCount txs S = 0 := by
      simp only [supportCount]
      rw [List.countP_eq_zero]
      intro t ht
      exact hc t ht
    omega
  obtain ⟨t, ht, hSt⟩ := this
  simp only [decide_eq_true_eq] at hSt
  exact hSt.trans (mem_universeItems ht)

/-! ### Apriori miner

Modelled from the spec (section 4.2): level-wise search.  Level 1 holds the
frequent singletons; level k+1 candidates extend a frequent level-k itemset
by one new item and are generated only if every size-k subset is frequent
(the anti-monotonicity pruning rule); candidates are then filtered by a
support scan.  The loop stops when a level is empty; the fuel
(number of distinct items) bounds the maximal itemset size.
The body of mlxtend's apriori is not part of src/. -/

theorem level1_eq {ι : Type} [DecidableEq ι] (txs : List (Finset ι)) (θ : Nat) :
    level1 txs θ = levelSet txs θ 1 := by
  ext S
  simp only [level1, levelSet, Finset.mem_filter, Finset.mem_image,
    Finset.mem_powerset, Finset.card_eq_one]
  constructor
  · rintro ⟨⟨i, hi, rfl⟩, hsup⟩
    exact ⟨Finset.singleton_subset_iff.mpr hi, ⟨i, rfl⟩, hsup⟩
  · rintro ⟨hsub, ⟨i, rfl⟩, hsup⟩
    exact ⟨⟨i, Finset.singleton_subset_iff.mp hsub, rfl⟩, hsup⟩

theorem nextLevel_eq {ι : Type} [DecidableEq ι] (txs : List (Finset ι))
    (θ k : Nat) (hk : 1 ≤ k) :
    nextLevel txs θ (levelSet txs θ k) = levelSet txs θ (k + 1) := by
  ext C
  simp only [nextLevel, candidates, Finset.mem_filter, Finset.mem_biUnion,
    Finset.mem_image, Finset.mem_sdiff]
  constructor
  · rintro ⟨⟨⟨S, hS, i, ⟨hiu, hiS⟩, rfl⟩, _⟩, hsup⟩
    simp only [levelSet, Finset.mem_filter, Finset.mem_powerset] at hS ⊢
    obtain ⟨hSu, hSk, _⟩ := hS
    exact ⟨Finset.insert_subset hiu hSu,
      by rw [Finset.card_insert_of_not_mem hiS, hSk], hsup⟩
  · intro hC
    simp only [levelSet, Finset.mem_filter, Finset.mem_powerset] at hC
    obtain ⟨hCu, hCk, hCsup⟩ := hC
    have hCne : C.Nonempty := Finset.card_pos.mp (by omega)
    obtain ⟨i, hi⟩ := hCne
    have herase : ∀ j ∈ C, C.erase j ∈ levelSet txs θ k := by
      intro j hj
      simp only [levelSet, Finset.mem_filter, Finset.mem_powerset]
      refine ⟨(Finset.erase_subset j C).trans hCu, ?_, ?_⟩
      · rw [Finset.card_erase_of_mem hj, hCk]; omega
      · exact hCsup.trans (supportCount_anti txs (Finset.erase_subset j C))
    refine ⟨⟨⟨C.erase i, herase i hi, i, ⟨hCu hi, Finset.not_mem_erase i C⟩,
      Finset.insert_erase hi⟩, ?_⟩, hCsup⟩
    exact herase

theorem levelSet_empty_succ {ι : Type} [DecidableEq ι] (txs : List (Finset ι))
    (θ k : Nat) (hk : 1 ≤ k) (h : levelSet txs θ k = ∅) :
    levelSet txs θ (k + 1) = ∅ := by
  rw [Finset.eq_empty_iff_forall_not_mem] at h ⊢
  intro C hC
  simp only [levelSet, Finset.mem_filter, Finset.mem_powerset] at hC
  obtain ⟨hCu, hCk, hCsup⟩ := hC
  have hCne : C.Nonempty := Finset.card_pos.mp (by omega)
  obtain ⟨i, hi⟩ := hCne
  apply h (C.erase i)
  simp only [levelSet, Finset.mem_filter, Finset.mem_powerset]
  exact ⟨(Finset.erase_subset i C).trans hCu,
    by rw [Finset.card_erase_of_mem hi, hCk]; omega,
    hCsup.trans (supportCount_anti txs (Finset.erase_subset i C))⟩

theorem aprioriLoop_eq {ι : Type} [DecidableEq ι] (txs : List (Finset ι))
    (θ : Nat) :
    ∀ (f k : Nat), 1 ≤ k →
      aprioriLoop txs θ f (levelSet txs θ k)
        = (Finset.range f).biUnion (fun j => levelSet txs θ (k + j)) := by
  intro f
  induction f with
  | zero => intro k _; simp [aprioriLoop]
  | succ f ih =>
    intro k hk
    by_cases h0 : levelSet txs θ k = ∅
    · have hall : ∀ j, levelSet txs θ (k + j) = ∅ := by
        intro j
        induction j with
        | zero => simpa using h0
        | succ j ihj =>
          have := levelSet_empty_succ txs θ (k + j) (by omega) ihj
          exact this
      rw [aprioriLoop, if_pos h0]
      symm
      rw [Finset.eq_empty_iff_forall_not_mem]
      intro S hS
      rw [Finset.mem_biUnion] at hS
      obtain ⟨j, _, hj⟩ := hS
      rw [hall j] at hj
      exact absurd hj (Finset.not_mem_empty S)
    · rw [aprioriLoop, if_neg h0, nextLevel_eq txs θ k hk, ih (k + 1) (by omega)]
      ext S
      simp only [Finset.mem_union, Finset.mem_biUnion, Finset.mem_range]
      constructor
      · rintro (h | ⟨j, hj, h⟩)
        · exact ⟨0, by omega, by simpa using h⟩
        · exact ⟨j + 1, by omega, by rw [show k + (j + 1) = k + 1 + j by omega]; exact h⟩
      · rintro ⟨j, hj, h⟩
        cases j with
        | zero => left; simpa using h
        | succ j =>
          right
          exact ⟨j, by omega, by rw [show k + 1 + j = k + (j + 1) by omega]; exact h⟩

/-- The breadth-first miner computes exactly the declarative contract. -/

theorem apriori_eq {ι : Type} [DecidableEq ι] (txs : List (Finset ι)) (θ : Nat) :
    apriori txs θ = frequentSets txs θ := by
  unfold apriori
  rw [level1_eq, aprioriLoop_eq txs θ _ 1 le_rfl]
  ext S
  simp only [frequentSets, levelSet, Finset.mem_biUnion, Finset.mem_range,
    Finset.mem_filter, Finset.mem_powerset]
  constructor
  · rintro ⟨j, hj, hSu, hSk, hsup⟩
    refine ⟨hSu, ?_, hsup⟩
    intro hS0
    rw [hS0] at hSk
    simp only [Finset.card_empty] at hSk
    omega
  · rintro ⟨hSu, hSne, hsup⟩
    have hcard : 1 ≤ S.card :=
      Finset.card_pos.mpr (Finset.nonempty_iff_ne_empty.mpr hSne)
    have hle : S.card ≤ (universeItems txs).card := Finset.card_le_card hSu
    exact ⟨S.card - 1, by omega, hSu, by omega, hsup⟩

theorem insBy_perm {α : Type} (pref : α → α → Bool) (x : α) :
    ∀ l : List α, (insBy pref x l).Perm (x :: l) := by
  intro l
  induction l with
  | nil => simp [insBy]
  | cons y ys ih =>
    rw [insBy]
    by_cases h : pref x y
    · rw [if_pos h]
    · rw [if_neg h]
      exact (ih.cons y).trans (List.Perm.swap x y ys)

theorem insSortBy_perm {α : Type} (pref : α → α → Bool) :
    ∀ l : List α, (insSortBy pref l).Perm l := by
  intro l
  induction l with
  | nil => simp [insSortBy]
  | cons x xs ih =>
    rw [insSortBy]
    exact (insBy_perm pref x (insSortBy pref xs)).trans (ih.cons x)

theorem mem_insSortBy {α : Type} (pref : α → α → Bool) (l : List α) (a : α) :
    a ∈ insSortBy pref l ↔ a ∈ l :=
  (insSortBy_perm pref l).mem_iff

/-! ### FP-Growth miner

Modelled from the spec (section 4.3).  The tree is a prefix-compressed
representation of a weighted transaction list; merging equal paths only sums
their counts, so supports over the tree equal supports over the flat list of
(path, count) pairs.  We therefore model a conditional pattern base directly
as the weighted list of prefix paths: for the current item i, the paths
containing i, restricted to the items still to be processed, with their
counts.  Each recursive call owns a freshly built base (no shared state).
The header items are ordered by ascending global support with ties broken by
canonical item order, and items below the threshold are discarded up front.
The body of mlxtend's fpgrowth is not part of src/. -/

theorem wsupport_anti {ι : Type} [DecidableEq ι] (db : List (Finset ι × Nat))
    {A B : Finset ι} (h : A ⊆ B) : wsupport db B ≤ wsupport db A := by
  induction db with
  | nil => simp [wsupport]
  | cons p ps ih =>
    simp only [wsupport, List.map_cons, List.sum_cons] at *
    have : (if B ⊆ p.1 then p.2 else 0) ≤ (if A ⊆ p.1 then p.2 else 0) := by
      by_cases hB : B ⊆ p.1
      · rw [if_pos hB, if_pos (h.trans hB)]
      · rw [if_neg hB]
        omega
    omega

theorem wsupport_condDB {ι : Type} [DecidableEq ι] (db : List (Finset ι × Nat))
    (i : ι) (keep : Finset ι) {S : Finset ι} (hS : S ⊆ keep) :
    wsupport (condDB db i keep) S = wsupport db (insert i S) := by
  induction db with
  | nil => simp [wsupport, condDB]
  | cons p ps ih =>
    by_cases hi : i ∈ p.1
    · have hc : condDB (p :: ps) i keep = (p.1 ∩ keep, p.2) :: condDB ps i keep := by
        simp [condDB, hi]
      rw [hc]
      simp only [wsupport, List.map_cons, List.sum_cons] at *
      have hiff : S ⊆ p.1 ∩ keep ↔ insert i S ⊆ p.1 := by
        rw [Finset.subset_inter_iff, Finset.insert_subset_iff]
        constructor
        · rintro ⟨h1, _⟩; exact ⟨hi, h1⟩
        · rintro ⟨_, h1⟩; exact ⟨h1, hS⟩
      by_cases hSp : S ⊆ p.1 ∩ keep
      · rw [if_pos hSp, if_pos (hiff.mp hSp)]
        omega
      · rw [if_neg hSp, if_neg (fun hins => hSp (hiff.mpr hins))]
        omega
    · have hc : condDB (p :: ps) i keep = condDB ps i keep := by
        simp [condDB, hi]
      rw [hc, ih]
      simp only [wsupport, List.map_cons, List.sum_cons]
      have : ¬ insert i S ⊆ p.1 := fun hins =>
        hi (hins (Finset.mem_insert_self i S))
      rw [if_neg this]
      omega

theorem wsupport_cons {ι : Type} [DecidableEq ι] (p : Finset ι × Nat)
    (ps : List (Finset ι × Nat)) (S : Finset ι) :
    wsupport (p :: ps) S = (if S ⊆ p.1 then p.2 else 0) + wsupport ps S := by
  simp [wsupport]

theorem wsupport_toWeighted {ι : Type} [DecidableEq ι] (txs : List (Finset ι))
    (S : Finset ι) : wsupport (toWeighted txs) S = supportCount txs S := by
  induction txs with
  | nil => rfl
  | cons t ts ih =>
    have h1 : toWeighted (t :: ts) = (t, 1) :: toWeighted ts := rfl
    rw [h1, wsupport_cons, ih]
    simp only [supportCount, List.countP_cons]
    by_cases h : S ⊆ t
    · simp [h]; omega
    · simp [h]

theorem fpAux_eq {ι : Type} [DecidableEq ι] (θ : Nat) :
    ∀ (order : List ι) (db : List (Finset ι × Nat)) (suffix : Finset ι),
      fpAux θ order db suffix = freqOver order.toFinset db θ suffix := by
  intro order
  induction order with
  | nil =>
    intro db suffix
    ext P
    simp [fpAux, freqOver]
  | cons i rest ih =>
    intro db suffix
    rw [fpAux, ih, ih, List.toFinset_cons]
    by_cases hcnt : θ ≤ wsupport db ({i} : Finset ι)
    · rw [if_pos hcnt]
      ext ⟨P, c⟩
      simp only [Finset.mem_union, Finset.mem_insert, freqOver,
        Finset.mem_image, Finset.mem_filter, Finset.mem_powerset,
        Prod.mk.injEq]
      constructor
      · rintro ((⟨rfl, rfl⟩ | ⟨S, ⟨hsub, hne, hsup⟩, heq1, heq2⟩) | ⟨S, ⟨hsub, hne, hsup⟩, heq1, heq2⟩)
        · refine ⟨{i}, ⟨?_, ?_, hcnt⟩, ?_, rfl⟩
          · exact Finset.singleton_subset_iff.mpr (Finset.mem_insert_self i _)
          · exact Finset.singleton_ne_empty i
          · rw [Finset.insert_eq]
        · have hw : wsupport (condDB db i rest.toFinset) S
              = wsupport db (insert i S) := wsupport_condDB db i rest.toFinset hsub
          refine ⟨insert i S, ⟨Finset.insert_subset_insert i hsub,
            Finset.insert_ne_empty i S, ?_⟩, ?_, ?_⟩
          · rw [← hw]; exact hsup
          · rw [Finset.insert_union, ← Finset.union_insert, heq1]
          · rw [← hw, heq2]
        · exact ⟨S, ⟨hsub.trans (Finset.subset_insert i rest.toFinset), hne, hsup⟩,
            heq1, heq2⟩
      · rintro ⟨S, ⟨hsub, hne, hsup⟩, heq1, heq2⟩
        by_cases hiS : i ∈ S
        · by_cases hS1 : S.erase i = ∅
          · have hSi : S = {i} := by
              have := Finset.insert_erase hiS
              rw [hS1] at this
              rw [← this]
              rfl
            left; left
            subst hSi
            constructor
            · rw [← heq1, Finset.insert_eq]
            · exact heq2.symm
          · left; right
            have hsub' : S.erase i ⊆ rest.toFinset := by
              intro x hx
              have hxS := Finset.mem_of_mem_erase hx
              have hxi := Finset.ne_of_mem_erase hx
              rcases Finset.mem_insert.mp (hsub hxS) with h | h
              · exact absurd h hxi
              · exact h
            have hw : wsupport (condDB db i rest.toFinset) (S.erase i)
                = wsupport db (insert i (S.erase i)) :=
              wsupport_condDB db i rest.toFinset hsub'
            rw [Finset.insert_erase hiS] at hw
            refine ⟨S.erase i, ⟨hsub', hS1, ?_⟩, ?_, ?_⟩
            · rw [hw]; exact hsup
            · rw [Finset.union_insert, ← Finset.insert_union, Finset.insert_erase hiS, heq1]
            · rw [hw, heq2]
        · right
          refine ⟨S, ⟨?_, hne, hsup⟩, heq1, heq2⟩
          intro x hx
          rcases Finset.mem_insert.mp (hsub hx) with h | h
          · subst h; exact absurd hx hiS
          · exact h
    · rw [if_neg hcnt, Finset.empty_union]
      ext ⟨P, c⟩
      simp only [freqOver, Finset.mem_image, Finset.mem_filter,
        Finset.mem_powerset]
      constructor
      · rintro ⟨S, ⟨hsub, hne, hsup⟩, heq⟩
        exact ⟨S, ⟨hsub.trans (Finset.subset_insert i rest.toFinset), hne, hsup⟩, heq⟩
      · rintro ⟨S, ⟨hsub, hne, hsup⟩, heq⟩
        refine ⟨S, ⟨?_, hne, hsup⟩, heq⟩
        intro x hx
        rcases Finset.mem_insert.mp (hsub hx) with h | h
        · subst h
          have : wsupport db S ≤ wsupport db ({x} : Finset ι) :=
            wsupport_anti db (Finset.singleton_subset_iff.mpr hx)
          omega
        · exact h

theorem fpOrder_toFinset {ι : Type} [DecidableEq ι] [LinearOrder ι]
    (txs : List (Finset ι)) (θ : Nat) :
    (fpOrder txs θ).toFinset
      = (universeItems txs).filter
          (fun i => θ ≤ supportCount txs ({i} : Finset ι)) := by
  ext i
  simp only [List.mem_toFinset, fpOrder, mem_insSortBy, List.mem_filter,
    Finset.mem_sort, Finset.mem_filter, decide_eq_true_eq]

/-- The tree-based miner also computes exactly the declarative contract,
with each itemset carrying its true support count. -/

theorem fpgrowth_eq {ι : Type} [DecidableEq ι] [LinearOrder ι]
    (txs : List (Finset ι)) (θ : Nat) :
    fpgrowth txs θ
      = (frequentSets txs θ).image (fun S => (S, supportCount txs S)) := by
  rw [fpgrowth, fpAux_eq, fpOrder_toFinset]
  ext ⟨P, c⟩
  simp only [freqOver, frequentSets, Finset.mem_image, Finset.mem_filter,
    Finset.mem_powerset, Prod.mk.injEq, Finset.union_empty,
    wsupport_toWeighted]
  constructor
  · rintro ⟨S, ⟨hsub, hne, hsup⟩, heq1, heq2⟩
    exact ⟨S, ⟨fun x hx => (Finset.mem_filter.mp (hsub hx)).1, hne, hsup⟩,
      heq1, heq2⟩
  · rintro ⟨S, ⟨hsub, hne, hsup⟩, heq1, heq2⟩
    refine ⟨S, ⟨?_, hne, hsup⟩, heq1, heq2⟩
    intro x hx
    refine Finset.mem_filter.mpr ⟨hsub hx, ?_⟩
    have : supportCount txs S ≤ supportCount txs ({x} : Finset ι) :=
      supportCount_anti txs (Finset.singleton_subset_iff.mpr hx)
    omega

theorem aprioriAnn_eq {ι : Type} [DecidableEq ι] (txs : List (Finset ι))
    (θ : Nat) :
    aprioriAnn txs θ
      = (frequentSets txs θ).image (fun S => (S, supportCount txs S)) := by
  rw [aprioriAnn, apriori_eq]

/-! ### Query/ranking layer (src/app.py lines 189-219)

Pure reads over an already-computed rule list: membership filter on the
antecedent, descending sort by a numeric key with ties broken by list
(insertion/discovery) order, and take-K. -/

/-- Decomposition of rule-generator membership: every emitted rule comes
from an antecedent split of an itemset of size at least 2 and passes the
selected metric threshold. -/

theorem mem_association_rules {ι : Type} [DecidableEq ι]
    {itemsets : Finset (Finset ι)} {sup : Finset ι → ℚ} {m : Metric}
    {θm : ℚ} {r : Rule ι} (h : r ∈ association_rules itemsets sup m θm) :
    θm ≤ metricValue m r ∧
      ∃ S ∈ itemsets, 2 ≤ S.card ∧
        ∃ A, A ⊆ S ∧ A ≠ ∅ ∧ A ≠ S ∧ r = mkRule sup S A := by
  simp only [association_rules, Finset.mem_filter, Finset.mem_biUnion,
    Finset.mem_image, Finset.mem_erase, Finset.mem_powerset] at h
  obtain ⟨⟨S, ⟨hS, hcard⟩, A, ⟨hAS, hAne, hAsub⟩, hr⟩, hm⟩ := h
  exact ⟨hm, S, hS, hcard, A, hAsub, hAne, hAS, hr.symm⟩

/-- Conversely, every admissible split that passes the metric threshold is
emitted. -/

theorem association_rules_mem {ι : Type} [DecidableEq ι]
    {itemsets : Finset (Finset ι)} {sup : Finset ι → ℚ} {m : Metric}
    {θm : ℚ} {S A : Finset ι} (hS : S ∈ itemsets) (hcard : 2 ≤ S.card)
    (hAS : A ⊆ S) (hAne : A ≠ ∅) (hAS' : A ≠ S)
    (hm : θm ≤ metricValue m (mkRule sup S A)) :
    mkRule sup S A ∈ association_rules itemsets sup m θm := by
  simp only [association_rules, Finset.mem_filter, Finset.mem_biUnion,
    Finset.mem_image, Finset.mem_erase, Finset.mem_powerset]
  exact ⟨⟨S, ⟨hS, hcard⟩, A, ⟨hAS', hAne, hAS⟩, rfl⟩, hm⟩

theorem insBy_filter_key {ι : Type} (key : Rule ι → ℚ) (v : ℚ) (x : Rule ι) :
    ∀ l : List (Rule ι),
      (insBy (fun a b => decide (key b ≤ key a)) x l).filter
          (fun r => decide (key r = v))
        = if key x = v then x :: l.filter (fun r => decide (key r = v))
          else l.filter (fun r => decide (key r = v)) := by
  intro l
  induction l with
  | nil =>
    rw [insBy]
    by_cases hx : key x = v
    · simp [hx]
    · simp [hx]
  | cons y ys ih =>
    rw [insBy]
    by_cases hp : key y ≤ key x
    · rw [if_pos (by simpa using hp)]
      by_cases hx : key x = v
      · simp [List.filter_cons, hx]
      · simp [List.filter_cons, hx]
    · rw [if_neg (by simpa using hp)]
      by_cases hx : key x = v
      · have hy : ¬ key y = v := fun hy => hp (by rw [hy, hx])
        simp [List.filter_cons, hx, hy, ih]
      · simp [List.filter_cons, hx, ih]

/-- Stability of the descending sort: the elements holding any fixed key
value appear in the same relative (insertion) order as in the input. -/

theorem sortDescBy_filter_key {ι : Type} (key : Rule ι → ℚ) (v : ℚ) :
    ∀ rs : List (Rule ι),
      (sortDescBy key rs).filter (fun r => decide (key r = v))
        = rs.filter (fun r => decide (key r = v)) := by
  intro rs
  induction rs with
  | nil => rfl
  | cons r rest ih =>
    show (insBy _ r (sortDescBy key rest)).filter _ = _
    rw [insBy_filter_key key v r (sortDescBy key rest)]
    by_cases hr : key r = v
    · rw [if_pos hr, ih, List.filter_cons, if_pos (by simpa using hr)]
    · rw [if_neg hr, ih, List.filter_cons, if_neg (by simpa using hr)]

theorem mem_insBy {α : Type} (pref : α → α → Bool) (x : α) (l : List α)
    (a : α) : a ∈ insBy pref x l ↔ a = x ∨ a ∈ l :=
  ((insBy_perm pref x l).mem_iff).trans List.mem_cons

theorem insBy_pairwise {ι : Type} (key : Rule ι → ℚ) (x : Rule ι)
    (l : List (Rule ι)) (h : l.Pairwise (fun a b => key b ≤ key a)) :
    (insBy (fun a b => decide (key b ≤ key a)) x l).Pairwise
      (fun a b => key b ≤ key a) := by
  induction l with
  | nil => simp [insBy]
  | cons y ys ih =>
    rw [insBy]
    rcases List.pairwise_cons.mp h with ⟨hy, hys⟩
    by_cases hp : key y ≤ key x
    · rw [if_pos (by simpa using hp)]
      refine List.pairwise_cons.mpr ⟨?_, h⟩
      intro z hz
      rcases List.mem_cons.mp hz with h0 | hz
      · subst h0; exact hp
      · exact (hy z hz).trans hp
    · rw [if_neg (by simpa using hp)]
      refine List.pairwise_cons.mpr ⟨?_, ih hys⟩
      intro z hz
      rcases (mem_insBy _ x ys z).mp hz with h0 | hz
      · subst h0; exact le_of_not_le hp
      · exact hy z hz

/-- The descending sort is sorted: each element's key is at least every
later element's key. -/

theorem sortDescBy_pairwise {ι : Type} (key : Rule ι → ℚ) :
    ∀ rs : List (Rule ι),
      (sortDescBy key rs).Pairwise (fun a b => key b ≤ key a) := by
  intro rs
  induction rs with
  | nil => simp [sortDescBy, insSortBy]
  | cons r rest ih =>
    show (insBy _ r (insSortBy _ rest)).Pairwise _
    exact insBy_pairwise key r _ ih

theorem sortDescBy_perm {ι : Type} (key : Rule ι → ℚ) (rs : List (Rule ι)) :
    (sortDescBy key rs).Perm rs :=
  insSortBy_perm _ rs

theorem toLowerN_upper {a b : Nat} (h : toLowerN a = toLowerN b) :
    toUpperN a = toUpperN b := by
  unfold toLowerN at h
  unfold toUpperN
  split_ifs at h ⊢ <;> omega

theorem toLowerN_alpha {a b : Nat} (h : toLowerN a = toLowerN b) :
    isAlphaN a = isAlphaN b := by
  unfold toLowerN at h
  rw [Bool.eq_iff_iff]
  simp only [isAlphaN, Bool.or_eq_true, Bool.and_eq_true, decide_eq_true_eq]
  split_ifs at h <;> omega

theorem titleMap_congr :
    ∀ (l1 l2 : List Nat), l1.map toLowerN = l2.map toLowerN →
      ∀ b : Bool, titleMap b l1 = titleMap b l2 := by
  intro l1
  induction l1 with
  | nil =>
    intro l2 h b
    cases l2 with
    | nil => rfl
    | cons d ds => simp at h
  | cons c cs ih =>
    intro l2 h b
    cases l2 with
    | nil => simp at h
    | cons d ds =>
      simp only [List.map_cons, List.cons.injEq] at h
      obtain ⟨hc, hcs⟩ := h
      rw [titleMap, titleMap, toLowerN_alpha hc, ih ds hcs]
      cases b with
      | true => rw [if_pos rfl, if_pos rfl, hc]
      | false => rw [if_neg (by simp), if_neg (by simp), toLowerN_upper hc]

/-- Two names that agree after stripping and case-folding normalize to the
same item name. -/

theorem normalizeName_congr {r1 r2 : List Nat}
    (h : (pyStrip r1).map toLowerN = (pyStrip r2).map toLowerN) :
    normalizeName r1 = normalizeName r2 :=
  titleMap_congr (pyStrip r1) (pyStrip r2) h false

theorem countThreshold_eq {s : ℚ} {n k : Nat} (h1 : (k : ℚ) - 1 < s * n)
    (h2 : s * n ≤ (k : ℚ)) : countThreshold s n = k := by
  have hc : Int.ceil (s * (n : ℚ)) = (k : ℤ) := by
    rw [Int.ceil_eq_iff]
    constructor
    · push_cast
      exact h1
    · push_cast
      exact h2
  rw [countThreshold, hc]
  simp

theorem supQ_eq {ι : Type} [DecidableEq ι] {txs : List (Finset ι)}
    {S : Finset ι} {c n : Nat} (hc : supportCount txs S = c)
    (hn : txs.length = n) : supQ txs S = (c : ℚ) / (n : ℚ) := by
  rw [supQ, hc, hn]

theorem frequent_itemsets_eq {ι : Type} [DecidableEq ι]
    (txs : List (Finset ι)) :
    frequent_itemsets txs
      = frequentSets txs (countThreshold (1 / 100) txs.length) :=
  apriori_eq txs _

theorem frequent_itemsets_fp_eq {ι : Type} [DecidableEq ι] [LinearOrder ι]
    (txs : List (Finset ι)) :
    frequent_itemsets_fp txs
      = frequentSets txs (countThreshold (1 / 20) txs.length) := by
  rw [frequent_itemsets_fp, fpgrowth_eq, Finset.image_image]
  exact Finset.image_id

/-- Claim C1: for every transaction matrix and every support threshold, the
set of frequent itemsets, each with its support value, produced by the
breadth-first Apriori miner equals, as a set, the set produced by the
tree-based FP-Growth miner run on the same matrix and threshold. -/

theorem apriori_fpgrowth_equiv {ι : Type} [DecidableEq ι] [LinearOrder ι]
    (txs : List (Finset ι)) (θ : Nat) : aprioriAnn txs θ = fpgrowth txs θ := by
  rw [aprioriAnn_eq, fpgrowth_eq]

/-- Claim C4: anti-monotonicity — for itemsets A ⊆ B the support of A is at
least the support of B, both as matrix-row counts and as the fractional
supports the miners report. -/

theorem support_anti_monotone {ι : Type} [DecidableEq ι]
    (txs : List (Finset ι)) {A B : Finset ι} (h : A ⊆ B) :
    supportCount txs B ≤ supportCount txs A ∧ supQ txs B ≤ supQ txs A := by
  refine ⟨supportCount_anti txs h, ?_⟩
  rw [supQ, supQ, div_eq_mul_inv, div_eq_mul_inv]
  exact mul_le_mul_of_nonneg_right
    (by exact_mod_cast supportCount_anti txs h) (by positivity)

theorem support_anti_monotone_witness :
    ({0} : Finset ℕ) ⊆ {0, 1} ∧
      supportCount db4 ({0, 1} : Finset ℕ) ≤ supportCount db4 {0} ∧
      supQ db4 ({0, 1} : Finset ℕ) ≤ supQ db4 {0} :=
  ⟨by decide, (support_anti_monotone db4 (by decide)).1,
    (support_anti_monotone db4 (by decide)).2⟩

/-- Claim C6: the support threshold is inclusive — an itemset whose support
count is exactly the threshold is mined (by both miners) and an itemset one
transaction-count unit below it is not. -/

theorem threshold_boundary {ι : Type} [DecidableEq ι] [LinearOrder ι]
    (txs : List (Finset ι)) (θ : Nat) {S T : Finset ι} (hθ : 1 ≤ θ)
    (hSu : S ⊆ universeItems txs) (hSne : S ≠ ∅)
    (hS : supportCount txs S = θ) (hT : supportCount txs T = θ - 1) :
    S ∈ apriori txs θ ∧ (S, θ) ∈ fpgrowth txs θ ∧
      T ∉ apriori txs θ ∧ ∀ c, (T, c) ∉ fpgrowth txs θ := by
  have hSfreq : S ∈ frequentSets txs θ := by
    simp only [frequentSets, Finset.mem_filter, Finset.mem_powerset]
    exact ⟨hSu, hSne, le_of_eq hS.symm⟩
  refine ⟨?_, ?_, ?_, ?_⟩
  · rw [apriori_eq]
    exact hSfreq
  · rw [fpgrowth_eq]
    have := Finset.mem_image_of_mem (fun S => (S, supportCount txs S)) hSfreq
    simpa only [hS] using this
  · rw [apriori_eq]
    simp only [frequentSets, Finset.mem_filter, Finset.mem_powerset, not_and]
    intro _ _
    omega
  · intro c
    rw [fpgrowth_eq]
    intro hmem
    rw [Finset.mem_image] at hmem
    obtain ⟨S', hS', heq⟩ := hmem
    rw [Prod.mk.injEq] at heq
    obtain ⟨rfl, hc⟩ := heq
    simp only [frequentSets, Finset.mem_filter, Finset.mem_powerset] at hS'
    obtain ⟨_, _, hsup⟩ := hS'
    omega

theorem threshold_boundary_witness :
    ({0} : Finset ℕ) ∈ apriori dbW6 2 ∧
      (({0} : Finset ℕ), 2) ∈ fpgrowth dbW6 2 ∧
      ({1} : Finset ℕ) ∉ apriori dbW6 2 ∧
      ∀ c, (({1} : Finset ℕ), c) ∉ fpgrowth dbW6 2 :=
  threshold_boundary dbW6 2 (by decide) (by decide) (by decide)
    (by decide) (by decide)

theorem db4_threshold : countThreshold (1 / 100) db4.length = 1 := by
  show countThreshold (1 / 100) 4 = 1
  exact countThreshold_eq (by norm_num) (by norm_num)

theorem dbC2_threshold : countThreshold (1 / 20) dbC2.length = 1 := by
  show countThreshold (1 / 20) 4 = 1
  exact countThreshold_eq (by norm_num) (by norm_num)

theorem mem_rules_db4 : mkRule (supQ db4) {1, 2} {2} ∈ rules db4 := by
  rw [rules, Finset.mem_filter]
  constructor
  · apply association_rules_mem
    · rw [frequent_itemsets_eq, db4_threshold]
      decide
    · decide
    · decide
    · decide
    · decide
    · show (3 : ℚ) / 10 ≤ supQ db4 {1, 2} / supQ db4 {2}
      rw [supQ_eq (show supportCount db4 ({1, 2} : Finset ℕ) = 2 by decide) (show db4.length = 4 from rfl),
        supQ_eq (show supportCount db4 ({2} : Finset ℕ) = 2 by decide) (show db4.length = 4 from rfl)]
      norm_num
  · show (1 : ℚ) < supQ db4 {1, 2} / supQ db4 {2} / supQ db4 (({1, 2} : Finset ℕ) \ {2})
    have hd : (({1, 2} : Finset ℕ) \ {2}) = {1} := by decide
    rw [hd, supQ_eq (show supportCount db4 ({1, 2} : Finset ℕ) = 2 by decide) (show db4.length = 4 from rfl),
      supQ_eq (show supportCount db4 ({2} : Finset ℕ) = 2 by decide) (show db4.length = 4 from rfl),
      supQ_eq (show supportCount db4 ({1} : Finset ℕ) = 3 by decide) (show db4.length = 4 from rfl)]
    norm_num

theorem mem_rules_fp_dbC2 : mkRule (supQ dbC2) {0, 1} {1} ∈ rules_fp dbC2 := by
  rw [rules_fp]
  apply association_rules_mem
  · rw [frequent_itemsets_fp_eq, dbC2_threshold]
    decide
  · decide
  · decide
  · decide
  · decide
  · show (1 : ℚ) ≤ supQ dbC2 {0, 1} / supQ dbC2 {1} / supQ dbC2 (({0, 1} : Finset ℕ) \ {1})
    have hd : (({0, 1} : Finset ℕ) \ {1}) = {0} := by decide
    rw [hd, supQ_eq (show supportCount dbC2 ({0, 1} : Finset ℕ) = 1 by decide) (show dbC2.length = 4 from rfl),
      supQ_eq (show supportCount dbC2 ({1} : Finset ℕ) = 4 by decide) (show dbC2.length = 4 from rfl),
      supQ_eq (show supportCount dbC2 ({0} : Finset ℕ) = 1 by decide) (show dbC2.length = 4 from rfl)]
    norm_num

/-- Claim C2 counterexample: on the FP-Growth path of src/app.py
(line 241 the generator is invoked with the lift metric at threshold 1.0,
not with a confidence threshold), a rule is emitted whose confidence 1/4 is
below the 0.3 min_confidence used on the Apriori path, so the claim that
every emitted rule on both paths meets the confidence threshold is false. -/

theorem rule_thresholds_counterexample :
    mkRule (supQ dbC2) {0, 1} {1} ∈ rules_fp dbC2 ∧
      (mkRule (supQ dbC2) {0, 1} {1}).confidence < 3 / 10 := by
  refine ⟨mem_rules_fp_dbC2, ?_⟩
  show supQ dbC2 {0, 1} / supQ dbC2 {1} < 3 / 10
  rw [supQ_eq (show supportCount dbC2 ({0, 1} : Finset ℕ) = 1 by decide) (show dbC2.length = 4 from rfl),
    supQ_eq (show supportCount dbC2 ({1} : Finset ℕ) = 4 by decide) (show dbC2.length = 4 from rfl)]
  norm_num

/-- Claim C2 (amended): on the Apriori path (app.py lines 83-84) every
emitted rule has confidence at least the 0.3 min_confidence and the lift > 1
requirement is a separate caller-side post-filter; the rule generator,
invoked with the confidence metric, enforces exactly the confidence
threshold.  On the FP-Growth path (line 241) the generator is instead
invoked with the lift metric at threshold 1.0, so its rules satisfy
lift at least 1 but no confidence bound. -/

theorem rule_thresholds_amended {ι : Type} [DecidableEq ι] [LinearOrder ι]
    (txs : List (Finset ι)) (itemsets : Finset (Finset ι))
    (sup : Finset ι → ℚ) (c : ℚ) (r1 r2 r3 : Rule ι) :
    (r1 ∈ rules txs → 3 / 10 ≤ r1.confidence ∧ 1 < r1.lift) ∧
      (r2 ∈ association_rules itemsets sup Metric.confidence c →
        c ≤ r2.confidence) ∧
      (r3 ∈ rules_fp txs → 1 ≤ r3.lift) := by
  refine ⟨?_, ?_, ?_⟩
  · intro h
    rw [rules, Finset.mem_filter] at h
    obtain ⟨h1, h2⟩ := h
    exact ⟨(mem_association_rules h1).1, h2⟩
  · intro h
    exact (mem_association_rules h).1
  · intro h
    rw [rules_fp] at h
    exact (mem_association_rules h).1

theorem rule_thresholds_amended_witness :
    (3 / 10 ≤ (mkRule (supQ db4) {1, 2} {2}).confidence ∧
        1 < (mkRule (supQ db4) {1, 2} {2}).lift) ∧
      3 / 10 ≤ (mkRule (supQ db4) {1, 2} {2}).confidence ∧
      1 ≤ (mkRule (supQ dbC2) {0, 1} {1}).lift := by
  have h := rule_thresholds_amended db4 (frequent_itemsets db4) (supQ db4)
    (3 / 10) (mkRule (supQ db4) {1, 2} {2}) (mkRule (supQ db4) {1, 2} {2})
    (mkRule (supQ db4) {1, 2} {2})
  have hfp := rule_thresholds_amended dbC2 (frequent_itemsets dbC2)
    (supQ dbC2) (3 / 10) (mkRule (supQ dbC2) {0, 1} {1})
    (mkRule (supQ dbC2) {0, 1} {1}) (mkRule (supQ dbC2) {0, 1} {1})
  have hmemA : mkRule (supQ db4) {1, 2} {2}
      ∈ association_rules (frequent_itemsets db4) (supQ db4)
          Metric.confidence (3 / 10) :=
    (Finset.mem_filter.mp mem_rules_db4).1
  exact ⟨h.1 mem_rules_db4, h.2.1 hmemA, hfp.2.2 mem_rules_fp_dbC2⟩

theorem mem_assoc_db4_01 :
    mkRule (supQ db4) {0, 1} {0}
      ∈ association_rules (frequent_itemsets db4) (supQ db4)
          Metric.confidence (3 / 10) := by
  apply association_rules_mem
  · rw [frequent_itemsets_eq, db4_threshold]
    decide
  · decide
  · decide
  · decide
  · decide
  · show (3 : ℚ) / 10 ≤ supQ db4 {0, 1} / supQ db4 {0}
    rw [supQ_eq (show supportCount db4 ({0, 1} : Finset ℕ) = 2 by decide) (show db4.length = 4 from rfl),
      supQ_eq (show supportCount db4 ({0} : Finset ℕ) = 3 by decide) (show db4.length = 4 from rfl)]
    norm_num

/-- Claim C5: every generated rule carries confidence equal to
support(antecedent ∪ consequent) / support(antecedent) and lift equal to
that confidence divided by support(consequent); in the scenario matrix db4
(four transactions, support({A,B}) = 0.5, support({A}) = support({B}) =
0.75) the rule A → B is generated with confidence 2/3 and lift 8/9. -/

theorem rule_metrics {ι : Type} [DecidableEq ι] {itemsets : Finset (Finset ι)}
    {sup : Finset ι → ℚ} {m : Metric} {θm : ℚ} {r : Rule ι}
    (h : r ∈ association_rules itemsets sup m θm) :
    (r.support = sup (r.antecedent ∪ r.consequent) ∧
        r.confidence = r.support / sup r.antecedent ∧
        r.lift = r.confidence / sup r.consequent) ∧
      (supQ db4 ({0, 1} : Finset ℕ) = 1 / 2 ∧
        supQ db4 ({0} : Finset ℕ) = 3 / 4 ∧
        supQ db4 ({1} : Finset ℕ) = 3 / 4 ∧
        (mkRule (supQ db4) {0, 1} {0}).confidence = 2 / 3 ∧
        (mkRule (supQ db4) {0, 1} {0}).lift = 8 / 9 ∧
        mkRule (supQ db4) {0, 1} {0}
          ∈ association_rules (frequent_itemsets db4) (supQ db4)
              Metric.confidence (3 / 10)) := by
  constructor
  · obtain ⟨-, S, -, -, A, hAS, -, -, rfl⟩ := mem_association_rules h
    refine ⟨?_, rfl, rfl⟩
    show sup S = sup (A ∪ S \ A)
    rw [Finset.union_sdiff_of_subset hAS]
  · have h01 : supQ db4 ({0, 1} : Finset ℕ) = 1 / 2 := by
      rw [supQ_eq (show supportCount db4 ({0, 1} : Finset ℕ) = 2 by decide) (show db4.length = 4 from rfl)]
      norm_num
    have h0 : supQ db4 ({0} : Finset ℕ) = 3 / 4 := by
      rw [supQ_eq (show supportCount db4 ({0} : Finset ℕ) = 3 by decide) (show db4.length = 4 from rfl)]
      norm_num
    have h1 : supQ db4 ({1} : Finset ℕ) = 3 / 4 := by
      rw [supQ_eq (show supportCount db4 ({1} : Finset ℕ) = 3 by decide) (show db4.length = 4 from rfl)]
      norm_num
    have hd : (({0, 1} : Finset ℕ) \ {0}) = {1} := by decide
    refine ⟨h01, h0, h1, ?_, ?_, mem_assoc_db4_01⟩
    · show supQ db4 {0, 1} / supQ db4 {0} = 2 / 3
      rw [h01, h0]
      norm_num
    · show supQ db4 {0, 1} / supQ db4 {0} / supQ db4 (({0, 1} : Finset ℕ) \ {0}) = 8 / 9
      rw [hd, h01, h0, h1]
      norm_num

theorem rule_metrics_witness :
    (mkRule (supQ db4) {0, 1} {0}).confidence
        = (mkRule (supQ db4) {0, 1} {0}).support
            / supQ db4 (mkRule (supQ db4) {0, 1} {0}).antecedent ∧
      (mkRule (supQ db4) {0, 1} {0}).lift
        = (mkRule (supQ db4) {0, 1} {0}).confidence
            / supQ db4 (mkRule (supQ db4) {0, 1} {0}).consequent :=
  ⟨(rule_metrics mem_assoc_db4_01).1.2.1, (rule_metrics mem_assoc_db4_01).1.2.2⟩

/-- Claim C7: the query/ranking operations are pure reads over the computed
rule list: the filter keeps exactly the rules whose antecedent contains the
given item, in their original order; the descending sort is a permutation
of the input, sorted by the chosen key, and stable (rules with equal keys
keep their insertion/discovery order); top-K returns the first K rules of
the sorted order; nothing is mutated or recomputed. -/

theorem query_layer_pure {ι : Type} [DecidableEq ι] (rs : List (Rule ι))
    (p : ι) (key : Rule ι → ℚ) (k : Nat) (v : ℚ) :
    (∀ r : Rule ι, r ∈ filtered_rules rs p ↔ r ∈ rs ∧ p ∈ r.antecedent) ∧
      (filtered_rules rs p).Sublist rs ∧
      (sortDescBy key rs).Perm rs ∧
      (sortDescBy key rs).Pairwise (fun a b => key b ≤ key a) ∧
      (sortDescBy key rs).filter (fun r => decide (key r = v))
        = rs.filter (fun r => decide (key r = v)) ∧
      topK key k rs = (sortDescBy key rs).take k ∧
      top3 rs = (sortDescBy Rule.lift rs).take 3 ∧
      top5 rs = (sortDescBy Rule.lift rs).take 10 := by
  refine ⟨?_, List.filter_sublist rs, sortDescBy_perm key rs,
    sortDescBy_pairwise key rs, sortDescBy_filter_key key v rs, rfl, rfl, rfl⟩
  intro r
  rw [filtered_rules, List.mem_filter]
  simp

/-- Claim C3 counterexample: on an empty transaction table src/app.py does
not fail with a typed EmptyInputError — no such error exists anywhere in
the code; the guard of line 74 routes to the warning of line 403 instead. -/

theorem empty_input_counterexample :
    runApp ([] : List (Nat × ℕ)) = AppOutcome.dataWarning ∧
      runApp ([] : List (Nat × ℕ)) ≠ AppOutcome.emptyInputError :=
  ⟨rfl, fun h => AppOutcome.noConfusion h⟩

/-- Claim C3 (amended): when the transaction table is empty the app never
runs the miners: it renders the data warning and returns no itemset or rule
collection at all — neither a typed EmptyInputError nor a silently empty
result set. -/

theorem empty_input_amended {ι : Type} [DecidableEq ι]
    (records : List (Nat × ι)) (h : records = []) :
    runApp records = AppOutcome.dataWarning ∧
      (∀ I R, runApp records ≠ AppOutcome.results I R) ∧
      runApp records ≠ AppOutcome.emptyInputError := by
  subst h
  refine ⟨rfl, ?_, ?_⟩
  · intro I R hc
    exact AppOutcome.noConfusion hc
  · intro hc
    exact AppOutcome.noConfusion hc

theorem empty_input_amended_witness :
    runApp ([] : List (Nat × ℕ)) = AppOutcome.dataWarning ∧
      runApp ([] : List (Nat × ℕ)) ≠ AppOutcome.emptyInputError :=
  ⟨(empty_input_amended ([] : List (Nat × ℕ)) rfl).1,
    (empty_input_amended ([] : List (Nat × ℕ)) rfl).2.2⟩

/-- Claim C9: every selectable product (line 189: sorted matrix columns)
belongs to the encoder's item universe, so the antecedent-membership filter
of line 194 is total for every selectable product and the unknown-item
failure branch of the spec is unreachable: the query always returns the
filtered rule list. -/

theorem product_in_universe {ι : Type} [DecidableEq ι] [LinearOrder ι]
    (txs : List (Finset ι)) {p : ι} (hp : p ∈ productChoices txs) :
    p ∈ universeItems txs ∧
      ∀ rs : List (Rule ι),
        queryRules (universeItems txs) rs p
          = Except.ok (filtered_rules rs p) := by
  have hu : p ∈ universeItems txs := by
    rw [productChoices, mem_insSortBy] at hp
    exact (Finset.mem_sort (α := ι) (· ≤ ·)).mp hp
  refine ⟨hu, fun rs => ?_⟩
  rw [queryRules, if_pos hu]

theorem product_in_universe_witness :
    (0 : ℕ) ∈ universeItems [({0, 1} : Finset ℕ)] ∧
      ∀ rs : List (Rule ℕ),
        queryRules (universeItems [({0, 1} : Finset ℕ)]) rs 0
          = Except.ok (filtered_rules rs 0) := by
  have hp : (0 : ℕ) ∈ productChoices [({0, 1} : Finset ℕ)] := by
    rw [productChoices, mem_insSortBy, Finset.mem_sort]
    decide
  exact product_in_universe [({0, 1} : Finset ℕ)] hp

theorem two_records_same_item (n : List Nat) :
    transactionsOf ([(1, n), (2, n)] : List (Nat × List Nat))
      = [{n}, {n}] := rfl

/-- Claim C10: item identity is insensitive to surrounding whitespace and
letter case — two raw product names that agree after stripping and
case-folding are normalized by load_data to the same item name, occupy a
single column of the presence matrix, and contribute to the same item's
support. -/

theorem name_normalization (r1 r2 : List Nat)
    (h : (pyStrip r1).map toLowerN = (pyStrip r2).map toLowerN) :
    normalizeName r1 = normalizeName r2 ∧
      universeItems (transactionsOf (load_data [(1, r1), (2, r2)]))
        = {normalizeName r1} ∧
      supportCount (transactionsOf (load_data [(1, r1), (2, r2)]))
        {normalizeName r1} = 2 := by
  have heq := normalizeName_congr h
  have hld : load_data [(1, r1), (2, r2)]
      = [(1, normalizeName r1), (2, normalizeName r2)] := rfl
  have htx : transactionsOf (load_data [(1, r1), (2, r2)])
      = [{normalizeName r1}, {normalizeName r1}] := by
    rw [hld, ← heq, two_records_same_item]
  refine ⟨heq, ?_, ?_⟩
  · rw [htx]
    show ({normalizeName r1} : Finset (List Nat))
        ∪ ({normalizeName r1} ∪ ∅) = {normalizeName r1}
    simp
  · rw [htx]
    have hsub : ({normalizeName r1} : Finset (List Nat)) ⊆ {normalizeName r1} :=
      Finset.Subset.refl _
    simp [supportCount, List.countP_cons, hsub]

theorem name_normalization_witness :
    normalizeName [32, 32, 98, 82, 69, 65, 68, 32]
        = normalizeName [66, 114, 101, 97, 100] ∧
      universeItems (transactionsOf (load_data
          [(1, [32, 32, 98, 82, 69, 65, 68, 32]), (2, [66, 114, 101, 97, 100])]))
        = {normalizeName [32, 32, 98, 82, 69, 65, 68, 32]} ∧
      supportCount (transactionsOf (load_data
          [(1, [32, 32, 98, 82, 69, 65, 68, 32]), (2, [66, 114, 101, 97, 100])]))
        {normalizeName [32, 32, 98, 82, 69, 65, 68, 32]} = 2 :=
  name_normalization [32, 32, 98, 82, 69, 65, 68, 32] [66, 114, 101, 97, 100]
    (by decide)

/-- Claim C8 counterexample: frozen_to_str (line 88) joins a frozenset's
items in its iteration order without sorting, so one and the same itemset
rendered under two different iteration orders yields two different strings;
the rendering therefore does not always report items in the encoder's
canonical column order (CPython hash-based frozenset iteration does not
guarantee the canonical order, and string hashing varies across processes). -/

theorem determinism_counterexample :
    (["Bread", "Apple"] : List String).toFinset
        = (["Apple", "Bread"] : List String).toFinset ∧
      frozen_to_str ["Bread", "Apple"] ≠ frozen_to_str ["Apple", "Bread"] :=
  ⟨by decide, by decide⟩

/-- Claim C8 (amended): with the input records and parameters fixed, any
two invocations of the pipeline return identical itemset and rule
collections, and render identical strings whenever the frozenset iteration
orders coincide; the items of a rendered itemset appear in the frozenset's
iteration order, which the code does not re-sort into the encoder's
canonical column order. -/

theorem determinism_amended {ι : Type} [DecidableEq ι]
    (records1 records2 : List (Nat × ι)) (h : records1 = records2)
    (it1 it2 : List String) (hit : it1 = it2) :
    runApp records1 = runApp records2 ∧
      frozen_to_str it1 = frozen_to_str it2 := by
  subst h
  subst hit
  exact ⟨rfl, rfl⟩

theorem determinism_amended_witness :
    runApp ([(1, 0)] : List (Nat × ℕ)) = runApp ([(1, 0)] : List (Nat × ℕ)) ∧
      frozen_to_str ["Apple"] = frozen_to_str ["Apple"] :=
  determinism_amended [(1, 0)] [(1, 0)] rfl ["Apple"] ["Apple"] rfl

theorem apriori_fpgrowth_equiv_witness :
    aprioriAnn db4 1 = fpgrowth db4 1 :=
  apriori_fpgrowth_equiv db4 1

theorem query_layer_pure_witness :
    (filtered_rules [mkRule (supQ db4) {0, 1} {0}] 0).Sublist
        [mkRule (supQ db4) {0, 1} {0}] ∧
      (sortDescBy Rule.lift [mkRule (supQ db4) {0, 1} {0}]).Perm
        [mkRule (supQ db4) {0, 1} {0}] :=
  ⟨(query_layer_pure [mkRule (supQ db4) {0, 1} {0}] 0 Rule.lift 3 1).2.1,
    (query_layer_pure [mkRule (supQ db4) {0, 1} {0}] 0 Rule.lift 3 1).2.2.1⟩
